import Mathlib

/-!
Verification of the lattice QCD update engine (`lib/lattice.cpp`).

The C++ source is embedded shallowly:
* `lattice::mod` becomes `PyQCD.latMod`, a fuel-bounded rendering of the
  `while (n < 0) n += d; return n % d;` loop;
* the `Lattice` class becomes the structure `PyQCD.Lattice` whose `links`
  member maps a raw integer 4-coordinate and a direction to a 3x3 complex
  matrix; C double arithmetic is modelled by exact real/complex arithmetic;
* the member functions `P`, `Si`, `randomSU3` (its deterministic
  normalisation step), `update_link`, `update` (its thread launch/join
  schedule) and `Pav` are translated line by line below.
-/

namespace PyQCD

open scoped Matrix

/-- 3x3 complex matrix, the type of a link variable. -/
abbrev Mat3 := Matrix (Fin 3) (Fin 3) ℂ

/-- A lattice site as a raw 4-tuple of integer coordinates
(the C++ `int site[4]`). -/
abbrev Site := ℤ × ℤ × ℤ × ℤ

/-- One pass of the loop body of `lattice::mod`: while the running value is
negative, add `d`; the `fuel` argument bounds the number of iterations
(for `0 < d`, `natAbs` of the start value is always enough, see
`modLoop_nonneg`). -/
def modLoop : ℕ → ℤ → ℤ → ℤ
  | 0, c, _ => c
  | fuel + 1, c, d => if c < 0 then modLoop fuel (c + d) d else c

/-- Embedding of `lattice::mod(n, d)`: run the while-loop, then take the
C++ `%` (which on a non-negative left operand agrees with `Int.emod`). -/
def latMod (c d : ℤ) : ℤ := modLoop c.natAbs c d % d

/-- The loop leaves the residue class modulo `d` unchanged. -/
lemma modLoop_emod (fuel : ℕ) : ∀ c d : ℤ, modLoop fuel c d % d = c % d := by
  induction fuel with
  | zero => intro c d; rfl
  | succ f ih =>
      intro c d
      by_cases h : c < 0
      · simp only [modLoop, if_pos h]
        rw [ih (c + d) d, show c + d = c + d * 1 by ring, Int.add_mul_emod_self_left]
      · simp [modLoop, if_neg h]

/-- With `0 < d` and enough fuel the loop lands on a non-negative value,
so the fuel bound in `latMod` is faithful to the C++ while-loop. -/
lemma modLoop_nonneg (d : ℤ) (hd : 0 < d) :
    ∀ (fuel : ℕ) (c : ℤ), -(fuel : ℤ) ≤ c → 0 ≤ modLoop fuel c d := by
  intro fuel
  induction fuel with
  | zero => intro c hc; simpa using hc
  | succ f ih =>
      intro c hc
      by_cases h : c < 0
      · simp only [modLoop, if_pos h]
        apply ih
        push_cast at hc ⊢
        omega
      · simpa [modLoop, if_neg h] using not_lt.mp h

/-- `latMod` agrees with mathematical (Euclidean) `mod`. -/
lemma latMod_eq_emod (c d : ℤ) : latMod c d = c % d :=
  modLoop_emod c.natAbs c d

/-- C7: for every coordinate `c` and extent `0 < d`, the wrap `latMod` is
idempotent, invariant under adding any integer multiple of the extent, and
lands in `[0, d)`. -/
theorem C7_mod_wrap (c k d : ℤ) (hd : 0 < d) :
    latMod (latMod c d) d = latMod c d ∧
    latMod (c + k * d) d = latMod c d ∧
    0 ≤ latMod c d ∧ latMod c d < d := by
  refine ⟨?_, ?_, ?_, ?_⟩
  · rw [latMod_eq_emod, latMod_eq_emod, Int.emod_emod_of_dvd c dvd_rfl]
  · rw [latMod_eq_emod, latMod_eq_emod, mul_comm, Int.add_mul_emod_self_left]
  · rw [latMod_eq_emod]; exact Int.emod_nonneg c (ne_of_gt hd)
  · rw [latMod_eq_emod]; exact Int.emod_lt_of_pos c hd

/-- Witness for C7 at `c = -5`, `k = 2`, `d = 3`. -/
theorem C7_mod_wrap_witness :
    latMod (latMod (-5) 3) 3 = latMod (-5) 3 ∧
    latMod (-5 + 2 * 3) 3 = latMod (-5) 3 ∧
    0 ≤ latMod (-5) 3 ∧ latMod (-5) 3 < 3 :=
  C7_mod_wrap (-5) 2 3 (by decide)

/-- The `Lattice` class: extent `n`, couplings, the link field
`links[i][j][k][l][m]` (curried over the raw coordinate 4-tuple and the
direction), and the perturbation pool `randSU3s`. -/
structure Lattice where
  n : ℕ
  beta : ℝ
  eps : ℝ
  Ncor : ℕ
  Ncf : ℕ
  links : Site → Fin 4 → Mat3
  randSU3s : List Mat3

/-- The unit vector `mu_vec` of `Lattice::P` (a length-4 int array that is
zero except for a `1` in slot `mu`), as a coordinate tuple. -/
def evec (mu : Fin 4) : Site :=
  if mu = 0 then (1, 0, 0, 0)
  else if mu = 1 then (0, 1, 0, 0)
  else if mu = 2 then (0, 0, 1, 0)
  else (0, 0, 0, 1)

/-- Componentwise application of `lattice::mod(-, n)` to a site, as done to
`site2`, `os1`, `os2` in `Lattice::P`. -/
def wrapS (n : ℕ) (s : Site) : Site :=
  (latMod s.1 n, latMod s.2.1 n, latMod s.2.2.1 n, latMod s.2.2.2 n)

/-- `Lattice::P(site, mu, nu)`: the plaquette operator
`1/3 * Re Tr (I * U_mu(site2) * U_nu(os1) * U_mu(os2)^H * U_nu(site2)^H)`
where `site2`, `os1 = site + mu_vec`, `os2 = site + nu_vec` are wrapped
componentwise by `lattice::mod`. -/
noncomputable def P (L : Lattice) (s : Site) (mu nu : Fin 4) : ℝ :=
  let site2 := wrapS L.n s
  let os1 := wrapS L.n (s + evec mu)
  let os2 := wrapS L.n (s + evec nu)
  1 / 3 * ((1 : Mat3) * L.links site2 mu * L.links os1 nu *
      (L.links os2 mu)ᴴ * (L.links site2 nu)ᴴ).trace.re

/-- The `planes` array of `Lattice::Si`: the directions in `{0,1,2,3}`
different from `link[4]`, collected in increasing order. -/
def planes (d : Fin 4) : List (Fin 4) :=
  (List.finRange 4).filter (fun t => t != d)

/-- `Lattice::Si(link)`: `-beta` times the sum, over the three planes, of
the plaquette at the link's site and the plaquette at the site shifted back
one step in the plane direction. -/
noncomputable def Si (L : Lattice) (s : Site) (d : Fin 4) : ℝ :=
  -L.beta * ((planes d).map (fun nu => P L s d nu + P L (s - evec nu) d nu)).sum

/-- The two random draws consumed by `Lattice::update_link`: the `rand()`
used to pick a pool element, and `double(rand())/double(RAND_MAX)` used in
the accept/reject test. -/
structure Rand where
  choice : ℕ
  u : ℝ

/-- Assignment to `links[s.1][s.2.1][s.2.2.1][s.2.2.2][d]` (raw indices:
`update_link` does not wrap its argument). -/
def setLink (L : Lattice) (s : Site) (d : Fin 4) (M : Mat3) : Lattice :=
  { L with links := fun s' d' => if s' = s ∧ d' = d then M else L.links s' d' }

/-- `randSU3s[rand() % randSU3s.size()]` of `Lattice::update_link`. -/
def poolDraw (L : Lattice) (r : Rand) : Mat3 :=
  L.randSU3s.getD (r.choice % L.randSU3s.length) 1

/-- The state after the trial mutation `links[link] *= randSU3` of
`Lattice::update_link`. -/
noncomputable def trial (L : Lattice) (s : Site) (d : Fin 4) (r : Rand) : Lattice :=
  setLink L s d (L.links s d * poolDraw L r)

/-- The local action change `dS = Si(link) - Si_old` of
`Lattice::update_link` (new state minus prior state). -/
noncomputable def dS (L : Lattice) (s : Site) (d : Fin 4) (r : Rand) : ℝ :=
  Si (trial L s d r) s d - Si L s d

/-- `Lattice::update_link(link)`: mutate the link by a pool draw, then
restore the saved matrix exactly when `dS > 0 && exp(-dS) < u`. -/
noncomputable def update_link (L : Lattice) (s : Site) (d : Fin 4) (r : Rand) :
    Lattice :=
  if 0 < dS L s d r ∧ Real.exp (-dS L s d r) < r.u
  then setLink (trial L s d r) s d (L.links s d)
  else trial L s d r

/-- The `mus` array of `Lattice::Pav`. -/
def musArr : Fin 6 → Fin 4 := ![1, 2, 3, 2, 3, 3]

/-- The `nus` array of `Lattice::Pav`. -/
def nusArr : Fin 6 → Fin 4 := ![0, 0, 0, 1, 1, 2]

/-- `Lattice::Pav()`: accumulate `P(site, mus[m], nus[m])` over the four
coordinate loops and the six plane slots, divide by `pow(n,4) * 6`; the
method reads the link field only, so the state component is returned
unchanged. -/
noncomputable def Pav (L : Lattice) : ℝ × Lattice :=
  ((∑ i ∈ Finset.range L.n, ∑ j ∈ Finset.range L.n, ∑ k ∈ Finset.range L.n,
      ∑ l ∈ Finset.range L.n, ∑ m : Fin 6,
        P L ((i : ℤ), (j : ℤ), (k : ℤ), (l : ℤ)) (musArr m) (nusArr m)) /
    ((L.n : ℝ) ^ 4 * 6), L)

lemma latMod_latMod (a : ℤ) (n : ℤ) : latMod (latMod a n) n = latMod a n := by
  simp [latMod_eq_emod, Int.emod_emod_of_dvd a dvd_rfl]

lemma latMod_add_latMod (a b : ℤ) (n : ℤ) :
    latMod (latMod a n + b) n = latMod (a + b) n := by
  simp [latMod_eq_emod, Int.emod_add_emod]

lemma wrapS_idem (n : ℕ) (s : Site) : wrapS n (wrapS n s) = wrapS n s := by
  simp [wrapS, latMod_latMod]

lemma wrapS_add_wrapS (n : ℕ) (s t : Site) :
    wrapS n (wrapS n s + t) = wrapS n (s + t) := by
  obtain ⟨a, b, c, e⟩ := s
  obtain ⟨a', b', c', e'⟩ := t
  simp [wrapS, Prod.ext_iff, latMod_add_latMod]

/-- The plaquette only sees the wrapped coordinates: pre-wrapping the site
argument does not change its value. -/
lemma P_wrap (L : Lattice) (s : Site) (mu nu : Fin 4) :
    P L (wrapS L.n s) mu nu = P L s mu nu := by
  simp only [P, wrapS_idem, wrapS_add_wrapS]

lemma planes0 : planes 0 = [1, 2, 3] := by decide

lemma planes1 : planes 1 = [0, 2, 3] := by decide

lemma planes2 : planes 2 = [0, 1, 3] := by decide

lemma planes3 : planes 3 = [0, 1, 2] := by decide

/-- C4: `Si(x, d)` is `-beta` times the six-term sum, over the three
directions `nu` distinct from `d`, of the plaquette anchored at `x` plus
the plaquette anchored at the periodically wrapped back-shifted site
`x - e_nu`. -/
theorem C4_Si_plaquette_sum (L : Lattice) (s : Site) (d : Fin 4) :
    Si L s d = -L.beta * ∑ nu ∈ Finset.univ.filter (fun nu => nu ≠ d),
      (P L s d nu + P L (wrapS L.n (s - evec nu)) d nu) := by
  have hw : ∀ nu : Fin 4,
      P L (wrapS L.n (s - evec nu)) d nu = P L (s - evec nu) d nu :=
    fun nu => P_wrap L (s - evec nu) d nu
  simp only [hw, Finset.sum_filter]
  fin_cases d <;>
    simp [Si, planes0, planes1, planes2, planes3, Fin.sum_univ_four] <;>
    exact Or.inl (by ring)

/-- The plaquette value as written in the specification:
`Re(Tr(U_mu(w(x)) * U_nu(w(x+e_mu)) * U_mu(w(x+e_nu))^H * U_nu(w(x))^H)) / 3`
with `w` the componentwise wrap. -/
noncomputable def plaquetteFormula (L : Lattice) (s : Site) (mu nu : Fin 4) : ℝ :=
  (L.links (wrapS L.n s) mu * L.links (wrapS L.n (s + evec mu)) nu *
    (L.links (wrapS L.n (s + evec nu)) mu)ᴴ *
    (L.links (wrapS L.n s) nu)ᴴ).trace.re / 3

/-- Each row of a unitary matrix is a unit vector. -/
lemma unitary_row_normSq {U : Mat3} (hU : U ∈ Matrix.unitaryGroup (Fin 3) ℂ)
    (i : Fin 3) : ∑ j, Complex.normSq (U i j) = 1 := by
  have h1 : U * star U = 1 := Matrix.mem_unitaryGroup_iff.mp hU
  have h2 := congrArg (fun M : Mat3 => M i i) h1
  simp only [Matrix.mul_apply, Matrix.star_apply, Matrix.one_apply_eq] at h2
  have h3 : ∀ j : Fin 3, U i j * star (U i j) = (Complex.normSq (U i j) : ℂ) :=
    fun j => Complex.mul_conj _
  rw [Finset.sum_congr rfl (fun j _ => h3 j)] at h2
  exact_mod_cast h2

/-- Diagonal entries of a unitary matrix have modulus at most one. -/
lemma unitary_diag_abs_le_one {U : Mat3}
    (hU : U ∈ Matrix.unitaryGroup (Fin 3) ℂ) (i : Fin 3) :
    Complex.abs (U i i) ≤ 1 := by
  have hle : Complex.normSq (U i i) ≤ 1 := by
    rw [← unitary_row_normSq hU i]
    exact Finset.single_le_sum (fun j _ => Complex.normSq_nonneg (U i j))
      (Finset.mem_univ i)
  rw [Complex.abs_apply]
  calc Real.sqrt (Complex.normSq (U i i)) ≤ Real.sqrt 1 := Real.sqrt_le_sqrt hle
    _ = 1 := Real.sqrt_one

/-- The real part of the trace of a 3x3 unitary matrix lies in `[-3, 3]`. -/
lemma unitary_trace_re_bound {U : Mat3}
    (hU : U ∈ Matrix.unitaryGroup (Fin 3) ℂ) : |U.trace.re| ≤ 3 := by
  have h : ∀ i : Fin 3, |(U i i).re| ≤ 1 := fun i =>
    le_trans (Complex.abs_re_le_abs _) (unitary_diag_abs_le_one hU i)
  have ht : U.trace.re = (U 0 0).re + (U 1 1).re + (U 2 2).re := by
    simp [Matrix.trace_fin_three, Complex.add_re]
  have h0 := abs_le.mp (h 0)
  have h1 := abs_le.mp (h 1)
  have h2 := abs_le.mp (h 2)
  rw [ht, abs_le]
  constructor <;> linarith [h0.1, h0.2, h1.1, h1.2, h2.1, h2.2]

/-- C5: the plaquette equals the specification's formula on the wrapped
coordinates, and whenever the four link matrices involved are special
unitary its value lies in `[-1, 1]`. -/
theorem C5_P_formula_and_bound (L : Lattice) (s : Site) (mu nu : Fin 4) :
    P L s mu nu = plaquetteFormula L s mu nu ∧
    (L.links (wrapS L.n s) mu ∈ Matrix.specialUnitaryGroup (Fin 3) ℂ →
     L.links (wrapS L.n (s + evec mu)) nu ∈ Matrix.specialUnitaryGroup (Fin 3) ℂ →
     L.links (wrapS L.n (s + evec nu)) mu ∈ Matrix.specialUnitaryGroup (Fin 3) ℂ →
     L.links (wrapS L.n s) nu ∈ Matrix.specialUnitaryGroup (Fin 3) ℂ →
     -1 ≤ P L s mu nu ∧ P L s mu nu ≤ 1) := by
  constructor
  · simp only [P, plaquetteFormula, Matrix.one_mul]
    ring
  · intro hA hB hC hD
    have hA' := (Matrix.mem_specialUnitaryGroup_iff.mp hA).1
    have hB' := (Matrix.mem_specialUnitaryGroup_iff.mp hB).1
    have hC' := (Matrix.mem_specialUnitaryGroup_iff.mp hC).1
    have hD' := (Matrix.mem_specialUnitaryGroup_iff.mp hD).1
    have hW : L.links (wrapS L.n s) mu * L.links (wrapS L.n (s + evec mu)) nu *
        (L.links (wrapS L.n (s + evec nu)) mu)ᴴ *
        (L.links (wrapS L.n s) nu)ᴴ ∈ Matrix.unitaryGroup (Fin 3) ℂ := by
      rw [← Matrix.star_eq_conjTranspose, ← Matrix.star_eq_conjTranspose]
      exact mul_mem (mul_mem (mul_mem hA' hB') (unitary.star_mem hC'))
        (unitary.star_mem hD')
    have hb := abs_le.mp (unitary_trace_re_bound hW)
    have hP : P L s mu nu = (L.links (wrapS L.n s) mu *
        L.links (wrapS L.n (s + evec mu)) nu *
        (L.links (wrapS L.n (s + evec nu)) mu)ᴴ *
        (L.links (wrapS L.n s) nu)ᴴ).trace.re / 3 := by
      simp only [P, Matrix.one_mul]
      ring
    rw [hP]
    constructor <;> [linarith [hb.1]; linarith [hb.2]]

/-- The perturbation matrix used in the concrete scenarios: `diag(-1,-1,1)`,
a special unitary matrix of trace `-1`. -/
noncomputable def R0 : Mat3 := !![-1, 0, 0; 0, -1, 0; 0, 0, 1]

/-- A concrete `Lattice(n = 2, beta = 1)` whose links are all the identity
matrix and whose perturbation pool is the single matrix `R0`. -/
noncomputable def L0 : Lattice :=
  { n := 2, beta := 1, eps := 0.24, Ncor := 50, Ncf := 1000,
    links := fun _ _ => 1, randSU3s := [R0] }

/-- Witness for C5 at the all-identity lattice `L0`, site `(0,0,0,0)`,
plane `(0, 1)`. -/
theorem C5_P_formula_and_bound_witness :
    -1 ≤ P L0 (0, 0, 0, 0) 0 1 ∧ P L0 (0, 0, 0, 0) 0 1 ≤ 1 := by
  have h1 : (1 : Mat3) ∈ Matrix.specialUnitaryGroup (Fin 3) ℂ :=
    Matrix.mem_specialUnitaryGroup_iff.mpr ⟨one_mem _, Matrix.det_one⟩
  exact (C5_P_formula_and_bound L0 (0, 0, 0, 0) 0 1).2 h1 h1 h1 h1

/-- The flattened site index computed in `Lattice::update`:
`index = l + n*(k + n*(j + n*i))`, over the loop coordinates `(i,j,k,l)`. -/
def siteIndex (n : ℕ) (s : ℕ × ℕ × ℕ × ℕ) : ℕ :=
  s.2.2.2 + n * (s.2.2.1 + n * (s.2.1 + n * s.1))

/-- The site reached by one step in direction `k` with periodic wrap. -/
def stepSite (n : ℕ) (s : ℕ × ℕ × ℕ × ℕ) (k : Fin 4) : ℕ × ℕ × ℕ × ℕ :=
  if k = 0 then ((s.1 + 1) % n, s.2.1, s.2.2.1, s.2.2.2)
  else if k = 1 then (s.1, (s.2.1 + 1) % n, s.2.2.1, s.2.2.2)
  else if k = 2 then (s.1, s.2.1, (s.2.2.1 + 1) % n, s.2.2.2)
  else (s.1, s.2.1, s.2.2.1, (s.2.2.2 + 1) % n)

/-- C2 fails on the code: on the `n = 2` lattice the neighbour of site
`(0,0,0,0)` in direction `0` is `(1,0,0,0)`, and both sites have even
flattened index (`0` and `8`), i.e. the same parity class — the neighbour
links needed by an update do not always lie in the other class. -/
theorem C2_parity_failure :
    stepSite 2 (0, 0, 0, 0) 0 = (1, 0, 0, 0) ∧
    siteIndex 2 (0, 0, 0, 0) % 2 = 0 ∧
    siteIndex 2 (stepSite 2 (0, 0, 0, 0) 0) % 2 = 0 := by decide

/-- Events in the schedule of `Lattice::update`: creation of a worker
thread for one link update (tagged with the parity class of its site's
flattened index and with the link tuple `(i,j,k,l,m)`), or a blocking
`join` on a thread of one parity class. -/
inductive Event where
  | launch (evenParity : Bool) (link : ℕ × ℕ × ℕ × ℕ × ℕ)
  | join (evenParity : Bool)
  deriving DecidableEq

/-- Whether an event is a thread creation. -/
def Event.isLaunch : Event → Bool
  | .launch _ _ => true
  | .join _ => false

/-- Whether an event creates a thread of the even parity class. -/
def Event.isEvenLaunch : Event → Bool
  | .launch b _ => b
  | .join _ => false

/-- Whether an event creates a thread of the odd parity class. -/
def Event.isOddLaunch : Event → Bool
  | .launch b _ => !b
  | .join _ => false

/-- The order of thread creations and joins performed by `Lattice::update`:
the four nested coordinate loops create one thread per direction per site
(both parity classes), and only after all creations are the odd-class
threads joined, then the even-class threads. -/
def updateTrace (n : ℕ) : List Event :=
  ((List.range n).flatMap fun i => (List.range n).flatMap fun j =>
    (List.range n).flatMap fun k => (List.range n).flatMap fun l =>
      (List.range 4).map fun m =>
        Event.launch ((l + n * (k + n * (j + n * i))) % 2 == 0) (i, j, k, l, m))
  ++ List.replicate (4 * (n ^ 4 / 2)) (Event.join false)
  ++ List.replicate (4 * (n ^ 4 / 2)) (Event.join true)

/-- C3 fails on the code: in the `n = 2` schedule the prefix of events
before the first join already contains thread creations of both parity
classes (and every creation precedes every join), so the second phase's
work is started before any completion of the first phase is observed —
the launching, not only the waiting, of the two phases overlaps. -/
theorem C3_no_phase_barrier :
    0 < ((updateTrace 2).takeWhile Event.isLaunch).countP Event.isEvenLaunch ∧
    0 < ((updateTrace 2).takeWhile Event.isLaunch).countP Event.isOddLaunch ∧
    ((updateTrace 2).dropWhile Event.isLaunch).all (fun e => !e.isLaunch) := by
  decide

/-- C8: `Pav()` returns the sum of the plaquette over all `n^4` sites and
over six plane slots forming exactly the unordered direction pairs
`{0,1}, {0,2}, {0,3}, {1,2}, {1,3}, {2,3}` (each once), divided by
`n^4 * 6`; it leaves the gauge field unchanged, so a second call on the
resulting state returns the same value. -/
theorem C8_Pav_average (L : Lattice) :
    (Pav L).1 = (∑ s ∈ Finset.range L.n ×ˢ Finset.range L.n ×ˢ
        Finset.range L.n ×ˢ Finset.range L.n, ∑ m : Fin 6,
        P L ((s.1 : ℤ), (s.2.1 : ℤ), (s.2.2.1 : ℤ), (s.2.2.2 : ℤ))
          (musArr m) (nusArr m)) / ((L.n : ℝ) ^ 4 * 6) ∧
    Finset.image (fun m => ({musArr m, nusArr m} : Finset (Fin 4))) Finset.univ
      = {{0, 1}, {0, 2}, {0, 3}, {1, 2}, {1, 3}, {2, 3}} ∧
    (Finset.image (fun m => ({musArr m, nusArr m} : Finset (Fin 4)))
      Finset.univ).card = 6 ∧
    (Pav L).2 = L ∧
    (Pav ((Pav L).2)).1 = (Pav L).1 := by
  refine ⟨?_, by decide, by decide, rfl, rfl⟩
  simp [Pav, Finset.sum_product]

lemma trace_R0 : R0.trace = -1 := by
  simp [R0, Matrix.trace_fin_three]

lemma conjTranspose_R0 : R0ᴴ = R0 := by
  ext i j
  fin_cases i <;> fin_cases j <;>
    simp [R0, Matrix.conjTranspose_apply, Matrix.vecHead, Matrix.vecTail]

lemma R0_ne_one : R0 ≠ (1 : Mat3) := by
  intro h
  have h0 := congrFun (congrFun h 0) 0
  simp [R0, Matrix.one_apply] at h0
  rw [Complex.ext_iff] at h0
  norm_num at h0

/-- Every plaquette of the all-identity lattice `L0` has value `1`. -/
lemma P_L0 (s : Site) (mu nu : Fin 4) : P L0 s mu nu = 1 := by
  simp [P, L0, Matrix.trace_one]

lemma beta_L0 : L0.beta = 1 := rfl

/-- The local action of any link of `L0` is `-6`. -/
lemma Si_L0 (s : Site) (d : Fin 4) : Si L0 s d = -6 := by
  have hmap : (planes d).map (fun nu => P L0 s d nu + P L0 (s - evec nu) d nu)
      = (planes d).map (fun _ => (2 : ℝ)) :=
    List.map_congr_left (fun nu _ => by rw [P_L0, P_L0]; norm_num)
  have hlen : (planes d).length = 3 := by fin_cases d <;> decide
  rw [Si, hmap, List.map_const', hlen, beta_L0, List.sum_replicate]
  norm_num

lemma poolDraw_L0 (r : Rand) : poolDraw L0 r = R0 := by
  simp [poolDraw, L0, Nat.mod_one]

/-- The trial state reached from `L0` by mutating link `((0,0,0,0), 0)`. -/
noncomputable def Ltr : Lattice :=
  setLink L0 (0, 0, 0, 0) 0 (L0.links (0, 0, 0, 0) 0 * R0)

lemma trial_L0 (r : Rand) : trial L0 (0, 0, 0, 0) 0 r = Ltr := by
  simp [trial, poolDraw_L0, Ltr]

lemma Ltr_n : Ltr.n = 2 := rfl

lemma links_Ltr (s : Site) (d : Fin 4) :
    Ltr.links s d = if s = (0, 0, 0, 0) ∧ d = 0 then R0 else 1 := by
  by_cases h : s = (0, 0, 0, 0) ∧ d = 0 <;>
    simp [Ltr, setLink, L0, h]

lemma P_Ltr_1A : P Ltr (0, 0, 0, 0) 0 1 = -1 / 3 := by
  have e0 : wrapS Ltr.n ((0, 0, 0, 0) : Site) = (0, 0, 0, 0) := by decide
  have e1 : wrapS Ltr.n (((0, 0, 0, 0) : Site) + evec 0) = (1, 0, 0, 0) := by decide
  have e2 : wrapS Ltr.n (((0, 0, 0, 0) : Site) + evec 1) = (0, 1, 0, 0) := by decide
  simp only [P, e0, e1, e2, links_Ltr]
  norm_num [Prod.ext_iff, conjTranspose_R0, trace_R0]

lemma P_Ltr_2A : P Ltr (0, 0, 0, 0) 0 2 = -1 / 3 := by
  have e0 : wrapS Ltr.n ((0, 0, 0, 0) : Site) = (0, 0, 0, 0) := by decide
  have e1 : wrapS Ltr.n (((0, 0, 0, 0) : Site) + evec 0) = (1, 0, 0, 0) := by decide
  have e2 : wrapS Ltr.n (((0, 0, 0, 0) : Site) + evec 2) = (0, 0, 1, 0) := by decide
  simp only [P, e0, e1, e2, links_Ltr]
  norm_num [Prod.ext_iff, conjTranspose_R0, trace_R0,
    eq_false (by decide : ¬((2 : Fin 4) = 0))]

lemma P_Ltr_3A : P Ltr (0, 0, 0, 0) 0 3 = -1 / 3 := by
  have e0 : wrapS Ltr.n ((0, 0, 0, 0) : Site) = (0, 0, 0, 0) := by decide
  have e1 : wrapS Ltr.n (((0, 0, 0, 0) : Site) + evec 0) = (1, 0, 0, 0) := by decide
  have e2 : wrapS Ltr.n (((0, 0, 0, 0) : Site) + evec 3) = (0, 0, 0, 1) := by decide
  simp only [P, e0, e1, e2, links_Ltr]
  norm_num [Prod.ext_iff, conjTranspose_R0, trace_R0,
    eq_false (by decide : ¬((3 : Fin 4) = 0))]

lemma P_Ltr_1B : P Ltr ((0, 0, 0, 0) - evec 1) 0 1 = -1 / 3 := by
  have e0 : wrapS Ltr.n (((0, 0, 0, 0) : Site) - evec 1) = (0, 1, 0, 0) := by decide
  have e1 : wrapS Ltr.n ((((0, 0, 0, 0) : Site) - evec 1) + evec 0) = (1, 1, 0, 0) := by decide
  have e2 : wrapS Ltr.n ((((0, 0, 0, 0) : Site) - evec 1) + evec 1) = (0, 0, 0, 0) := by decide
  simp only [P, e0, e1, e2, links_Ltr]
  norm_num [Prod.ext_iff, conjTranspose_R0, trace_R0]

lemma P_Ltr_2B : P Ltr ((0, 0, 0, 0) - evec 2) 0 2 = -1 / 3 := by
  have e0 : wrapS Ltr.n (((0, 0, 0, 0) : Site) - evec 2) = (0, 0, 1, 0) := by decide
  have e1 : wrapS Ltr.n ((((0, 0, 0, 0) : Site) - evec 2) + evec 0) = (1, 0, 1, 0) := by decide
  have e2 : wrapS Ltr.n ((((0, 0, 0, 0) : Site) - evec 2) + evec 2) = (0, 0, 0, 0) := by decide
  simp only [P, e0, e1, e2, links_Ltr]
  norm_num [Prod.ext_iff, conjTranspose_R0, trace_R0]

lemma P_Ltr_3B : P Ltr ((0, 0, 0, 0) - evec 3) 0 3 = -1 / 3 := by
  have e0 : wrapS Ltr.n (((0, 0, 0, 0) : Site) - evec 3) = (0, 0, 0, 1) := by decide
  have e1 : wrapS Ltr.n ((((0, 0, 0, 0) : Site) - evec 3) + evec 0) = (1, 0, 0, 1) := by decide
  have e2 : wrapS Ltr.n ((((0, 0, 0, 0) : Site) - evec 3) + evec 3) = (0, 0, 0, 0) := by decide
  simp only [P, e0, e1, e2, links_Ltr]
  norm_num [Prod.ext_iff, conjTranspose_R0, trace_R0]

lemma beta_Ltr : Ltr.beta = 1 := rfl

/-- The local action of the mutated link in the trial state is `2`. -/
lemma Si_Ltr : Si Ltr (0, 0, 0, 0) 0 = 2 := by
  rw [Si, planes0]
  simp only [List.map_cons, List.map_nil, List.sum_cons, List.sum_nil]
  rw [P_Ltr_1A, P_Ltr_1B, P_Ltr_2A, P_Ltr_2B, P_Ltr_3A, P_Ltr_3B, beta_Ltr]
  norm_num

/-- The action change of the concrete trial at `L0` is `8`, for every
random draw. -/
lemma dS_L0 (r : Rand) : dS L0 (0, 0, 0, 0) 0 r = 8 := by
  rw [dS, trial_L0, Si_Ltr, Si_L0]
  norm_num

lemma update_link_L0 (r : Rand) :
    update_link L0 (0, 0, 0, 0) 0 r =
      if Real.exp (-8) < r.u
      then setLink Ltr (0, 0, 0, 0) 0 (L0.links (0, 0, 0, 0) 0)
      else Ltr := by
  rw [update_link, dS_L0, trial_L0]
  norm_num

/-- C1 (amended): `update_link` right-multiplies a matrix drawn from the
perturbation pool into the addressed link (the draw belongs to the pool
whenever the pool is non-empty); the mutation is kept unconditionally
whenever `dS <= 0`, regardless of the random draw; when `dS > 0` it is
kept exactly when `u <= exp(-dS)`, the saved prior link matrix being
restored when `exp(-dS) < u`. -/
theorem C1_metropolis_rule (L : Lattice) (s : Site) (d : Fin 4) (r : Rand) :
    (L.randSU3s ≠ [] → poolDraw L r ∈ L.randSU3s) ∧
    (trial L s d r).links s d = L.links s d * poolDraw L r ∧
    (dS L s d r ≤ 0 → update_link L s d r = trial L s d r) ∧
    (0 < dS L s d r → r.u ≤ Real.exp (-dS L s d r) →
      update_link L s d r = trial L s d r) ∧
    (0 < dS L s d r → Real.exp (-dS L s d r) < r.u →
      update_link L s d r = setLink (trial L s d r) s d (L.links s d)) := by
  refine ⟨?_, ?_, ?_, ?_, ?_⟩
  · intro hne
    have hlt : r.choice % L.randSU3s.length < L.randSU3s.length :=
      Nat.mod_lt _ (List.length_pos.mpr hne)
    rw [poolDraw, List.getD_eq_getElem _ _ hlt]
    exact List.getElem_mem hlt
  · simp [trial, setLink]
  · intro h
    rw [update_link, if_neg (fun hc => absurd hc.1 (not_lt.mpr h))]
  · intro h1 h2
    rw [update_link, if_neg (fun hc => absurd hc.2 (not_lt.mpr h2))]
  · intro h1 h2
    rw [update_link, if_pos ⟨h1, h2⟩]

/-- C1 as frozen is false on the boundary draw: at `L0`, link
`((0,0,0,0), 0)`, with `u = exp(-8)`, the action change is `dS = 8 > 0`
and `u < exp(-dS)` fails, so the claim requires the saved prior matrix to
be restored; the code instead keeps the mutated link (`R0 ≠ 1`). -/
theorem C1_boundary_counterexample :
    0 < dS L0 (0, 0, 0, 0) 0 ⟨0, Real.exp (-8)⟩ ∧
    ¬ ((Rand.mk 0 (Real.exp (-8))).u <
        Real.exp (-dS L0 (0, 0, 0, 0) 0 ⟨0, Real.exp (-8)⟩)) ∧
    (update_link L0 (0, 0, 0, 0) 0 ⟨0, Real.exp (-8)⟩).links (0, 0, 0, 0) 0 ≠
      L0.links (0, 0, 0, 0) 0 := by
  refine ⟨?_, ?_, ?_⟩
  · rw [dS_L0]; norm_num
  · rw [dS_L0]; exact not_lt.mpr le_rfl
  · rw [update_link_L0, if_neg (lt_irrefl _), links_Ltr, if_pos ⟨rfl, rfl⟩]
    exact R0_ne_one

/-- Witness for the amended C1 at `L0` with draw `u = 0`: the pool draw
is in the pool and the uphill trial (`dS = 8`) with `u = 0 <= exp(-8)` is
kept. -/
theorem C1_metropolis_rule_witness :
    poolDraw L0 ⟨0, 0⟩ ∈ L0.randSU3s ∧
    update_link L0 (0, 0, 0, 0) 0 ⟨0, 0⟩ = trial L0 (0, 0, 0, 0) 0 ⟨0, 0⟩ :=
  ⟨(C1_metropolis_rule L0 (0, 0, 0, 0) 0 ⟨0, 0⟩).1 (by simp [L0]),
   (C1_metropolis_rule L0 (0, 0, 0, 0) 0 ⟨0, 0⟩).2.2.2.1
     (by rw [dS_L0]; norm_num) (by rw [dS_L0]; exact (Real.exp_pos _).le)⟩

/-- C10: in a sequential execution `update_link` modifies at most the
addressed link: the parameters `n`, `beta`, `eps`, `Ncor`, `Ncf`, the pool
`randSU3s`, and every other link are unchanged, whether the trial is
accepted or rejected. -/
theorem C10_update_link_frame (L : Lattice) (s : Site) (d : Fin 4) (r : Rand) :
    (update_link L s d r).n = L.n ∧
    (update_link L s d r).beta = L.beta ∧
    (update_link L s d r).eps = L.eps ∧
    (update_link L s d r).Ncor = L.Ncor ∧
    (update_link L s d r).Ncf = L.Ncf ∧
    (update_link L s d r).randSU3s = L.randSU3s ∧
    ∀ s' d', ¬(s' = s ∧ d' = d) →
      (update_link L s d r).links s' d' = L.links s' d' := by
  unfold update_link
  split_ifs with hc <;>
    refine ⟨rfl, rfl, rfl, rfl, rfl, rfl, fun s' d' h => ?_⟩ <;>
    simp [setLink, trial, h]

/-- Witness for C10 at `L0`: the neighbouring link `((1,0,0,0), 0)` is
untouched by the update of link `((0,0,0,0), 0)`. -/
theorem C10_update_link_frame_witness :
    (update_link L0 (0, 0, 0, 0) 0 ⟨0, 0⟩).links (1, 0, 0, 0) 0 =
      L0.links (1, 0, 0, 0) 0 :=
  (C10_update_link_frame L0 (0, 0, 0, 0) 0 ⟨0, 0⟩).2.2.2.2.2.2 (1, 0, 0, 0) 0
    (by decide)

/-- The direction-indexed write `mu_vec[mu] = 1` into a 4-slot int array of
`Lattice::P`, bounds-checked: `none` marks the out-of-bounds store the C++
code performs (undefined behaviour) when the direction is outside
`{0,1,2,3}`. -/
def dirVec (mu : ℕ) : Option Site :=
  if mu = 0 then some (1, 0, 0, 0)
  else if mu = 1 then some (0, 1, 0, 0)
  else if mu = 2 then some (0, 0, 1, 0)
  else if mu = 3 then some (0, 0, 0, 1)
  else none

/-- The read `links[...][mu]` for a raw integer direction, bounds-checked:
`none` marks the out-of-bounds vector access performed when `mu >= 4`.
The code contains no validation and no `InvalidDirection` error channel,
so the model has no error value other than the out-of-bounds marker. -/
def linkAt (L : Lattice) (s : Site) (mu : ℕ) : Option Mat3 :=
  if h : mu < 4 then some (L.links s ⟨mu, h⟩) else none

/-- `Lattice::P` with its direction arguments as raw integers and every
direction-indexed array access bounds-checked. -/
noncomputable def Pchecked (L : Lattice) (s : Site) (mu nu : ℕ) : Option ℝ := do
  let mv ← dirVec mu
  let nv ← dirVec nu
  let site2 := wrapS L.n s
  let os1 := wrapS L.n (s + mv)
  let os2 := wrapS L.n (s + nv)
  let u1 ← linkAt L site2 mu
  let u2 ← linkAt L os1 nu
  let u3 ← linkAt L os2 mu
  let u4 ← linkAt L site2 nu
  pure (1 / 3 * ((1 : Mat3) * u1 * u2 * u3ᴴ * u4ᴴ).trace.re)

/-- C6 fails on the code: no operation validates its direction argument.
For the out-of-range direction `4` the evaluation of the plaquette hits an
out-of-bounds array access (`none`) — not an `InvalidDirection` failure,
which does not exist anywhere in the code — while every in-range direction
evaluates without any check. -/
theorem C6_no_direction_validation :
    Pchecked L0 (0, 0, 0, 0) 4 0 = none ∧
    ∀ mu nu : Fin 4,
      (Pchecked L0 (0, 0, 0, 0) (mu : ℕ) (nu : ℕ)).isSome = true := by
  constructor
  · simp [Pchecked, dirVec]
  · intro mu nu
    fin_cases mu <;> fin_cases nu <;>
      simp [Pchecked, dirVec, linkAt, Option.bind]

/-- `B = I + i * eps * A` of `Lattice::randomSU3` (the randomly perturbed
identity handed to the QR factorisation). -/
noncomputable def perturbMatrix (eps : ℝ) (A : Mat3) : Mat3 :=
  1 + (Complex.I * (eps : ℂ)) • A

/-- The normalisation `Q / pow(Q.determinant(), 1./3)` of
`Lattice::randomSU3`, applied to the orthonormal factor `Q` returned by
the (external, Eigen) Householder QR factorisation of `B`. -/
noncomputable def projectSU3 (Q : Mat3) : Mat3 :=
  ((Q.det ^ ((3 : ℂ)⁻¹))⁻¹) • Q

/-- C9: for every unitary `Q` (the guarantee of the external Householder
QR step, in exact arithmetic), the matrix returned by `randomSU3`'s final
normalisation is special unitary: `M * M^H = 1` and `det M = 1`. -/
theorem C9_randomSU3_special_unitary (Q : Mat3)
    (hQ : Q ∈ Matrix.unitaryGroup (Fin 3) ℂ) :
    projectSU3 Q * (projectSU3 Q)ᴴ = 1 ∧ (projectSU3 Q).det = 1 := by
  have hQ1 : Q * Qᴴ = 1 := by
    have h := Matrix.mem_unitaryGroup_iff.mp hQ
    rwa [Matrix.star_eq_conjTranspose] at h
  have hdet1 : Q.det * star Q.det = 1 := by
    have h := congrArg Matrix.det hQ1
    rwa [Matrix.det_mul, Matrix.det_conjTranspose, Matrix.det_one] at h
  have hdet_ne : Q.det ≠ 0 := left_ne_zero_of_mul_eq_one hdet1
  set c : ℂ := Q.det ^ ((3 : ℂ)⁻¹) with hc
  have hc3 : c ^ (3 : ℕ) = Q.det := by
    have h := Complex.cpow_nat_inv_pow Q.det (by norm_num : (3 : ℕ) ≠ 0)
    push_cast at h
    rw [hc]
    exact h
  have hdet_nsq : Complex.normSq Q.det = 1 := by
    have h := hdet1
    rw [Complex.star_def, Complex.mul_conj] at h
    exact_mod_cast h
  have hnsq_cube : Complex.normSq c ^ (3 : ℕ) = 1 := by
    rw [← map_pow, hc3, hdet_nsq]
  have hnsq : Complex.normSq c = 1 := by
    have h0 : 0 ≤ Complex.normSq c := Complex.normSq_nonneg c
    nlinarith [sq_nonneg (Complex.normSq c - 1), sq_nonneg (Complex.normSq c + 1)]
  have hcc : c * star c = 1 := by
    rw [Complex.star_def, Complex.mul_conj, hnsq, Complex.ofReal_one]
  have hinv : c⁻¹ * star (c⁻¹) = 1 := by
    rw [Complex.star_def, map_inv₀, ← mul_inv, ← Complex.star_def, hcc, inv_one]
  constructor
  · rw [projectSU3, ← hc, Matrix.conjTranspose_smul, Matrix.smul_mul,
      Matrix.mul_smul, hQ1, smul_smul, hinv, one_smul]
  · rw [projectSU3, ← hc, Matrix.det_smul, Fintype.card_fin, inv_pow, hc3,
      inv_mul_cancel₀ hdet_ne]

/-- Witness for C9 at the identity unitary factor. -/
theorem C9_randomSU3_special_unitary_witness :
    projectSU3 1 * (projectSU3 1)ᴴ = 1 ∧ (projectSU3 1).det = 1 :=
  C9_randomSU3_special_unitary 1 (one_mem _)

end PyQCD
